import Mathlib

/-!
Verification of the annotation merge engine of `src/app.py` (a Flask text
annotation tool).  The document text is modelled as `List Char`; Python
`str.find` (including its negative-start clamping) is modelled by `pyFind`;
the database rows produced by one run of `auto_annotate` are modelled by the
pure state-passing functions below.  Python-level names are kept where the
development allows it (`Ann` stands for the source's Annotation model and
`save_ann` for the source's save-annotation API route).
-/

namespace App

/-- One row of the source's per-span table: tag type
(named entity "命名实体" / sentiment "情感标注"), a half-open character range
`[start_index, end_index)`, the covered text and a label. -/
structure Ann where
  tag_type : String
  start_index : Nat
  end_index : Nat
  selected_text : List Char
  label : String
deriving Repr, DecidableEq

/-- One row of the source's `KnowledgeEntity` table. -/
structure KnowledgeEntity where
  text : List Char
  label : String
  source : String
deriving Repr, DecidableEq

/-- `sub` occurs in `s` at position `i` (with room for its whole length). -/
def occursAt (s sub : List Char) (i : Nat) : Bool :=
  decide (i + sub.length ≤ s.length) && ((s.drop i).take sub.length == sub)

/-- Scan positions `i, i+1, ...` (at most `fuel` of them) for an occurrence. -/
def findFromAux (s sub : List Char) : Nat → Nat → Option Nat
  | _, 0 => none
  | i, fuel + 1 => if occursAt s sub i then some i else findFromAux s sub (i + 1) fuel

/-- Leftmost occurrence of `sub` in `s` at a position `≥ start`
(`none` when there is none): Python `s.find(sub, start)` for `start ≥ 0`. -/
def findFrom (s sub : List Char) (start : Nat) : Option Nat :=
  findFromAux s sub start (s.length + 1 - start)

/-- Python `s.find(sub, start)` for an arbitrary integer `start`: a negative
start is interpreted relative to the end of the string and clamped to `0`,
and a failed search yields `-1`. -/
def pyFind (s sub : List Char) (start : Int) : Int :=
  let st : Nat := if start < 0 then ((s.length : Int) + start).toNat else start.toNat
  match findFrom s sub st with
  | some i => (i : Int)
  | none => -1

/-- The character positions of the half-open range `[s, e)`, as a list:
Python `range(start, end)`. -/
def rangeList (s e : Nat) : List Nat :=
  (List.range (e - s)).map (s + ·)

/-- The running state of one `auto_annotate` run: the committed rows plus the
source's `annotated_positions` set of claimed character positions. -/
structure RunState where
  anns : List Ann
  positions : List Nat
deriving Repr

/-- Commit a candidate span exactly as every phase of `auto_annotate` does:
if any position of `[s, e)` is already claimed the candidate is dropped,
otherwise the row is added and all its positions are claimed. -/
def commit (st : RunState) (tag : String) (s e : Nat) (text : List Char)
    (label : String) : RunState :=
  if ∃ p ∈ rangeList s e, p ∈ st.positions then st
  else { anns := st.anns ++ [⟨tag, s, e, text, label⟩],
         positions := st.positions ++ rangeList s e }

/-- The labels whose spans the source files under tag type "命名实体". -/
def entityLabels : List String := ["人名", "地名", "组织", "时间"]

/-- Tag type of a knowledge-base span, derived from its label. -/
def kbTagType (label : String) : String :=
  if label ∈ entityLabels then "命名实体" else "情感标注"

/-- The source's `while True` loop over one knowledge-base key: repeated
`content.find(entity_text, start)`, committing each occurrence that does not
overlap a claimed position, then continuing the search after its end.  The
Python loop has no bound; `fuel` bounds the recursion (any run of the Python
loop that terminates is reproduced by a large enough `fuel`). -/
def kbKeyLoop (content key : List Char) (label : String) :
    Nat → RunState → Nat → RunState
  | 0, st, _ => st
  | fuel + 1, st, start =>
    match findFrom content key start with
    | none => st
    | some s =>
      kbKeyLoop content key label fuel
        (commit st (kbTagType label) s (s + key.length) key label) (s + key.length)

/-- Stable insertion keeping longer keys first (equal lengths keep their
original relative order, the earlier element staying first). -/
def insertDesc (x : List Char × String) :
    List (List Char × String) → List (List Char × String)
  | [] => [x]
  | y :: ys => if y.1.length ≤ x.1.length then x :: y :: ys else y :: insertDesc x ys

/-- Python's stable `sorted(knowledge_dict.items(), key=len, reverse=True)`:
keys in order of decreasing length, ties in first-encountered order. -/
def sortDesc : List (List Char × String) → List (List Char × String)
  | [] => []
  | x :: xs => insertDesc x (sortDesc xs)

/-- Phase 1 of `auto_annotate`: the knowledge-base matcher, scanning the
snapshot's keys longest-first. -/
def kbPhase (content : List Char) (kb : List (List Char × String))
    (st : RunState) : RunState :=
  (sortDesc kb).foldl
    (fun st kv => kbKeyLoop content kv.1 kv.2 (content.length + 1) st 0) st

/-- The entity rule of the heuristic classifier: jieba part-of-speech flag to
(tag type, label). -/
def classifyEntity (flag : String) : Option (String × String) :=
  if flag = "nr" then some ("命名实体", "人名")
  else if flag = "ns" then some ("命名实体", "地名")
  else if flag = "nt" then some ("命名实体", "组织")
  else if flag = "t" then some ("命名实体", "时间")
  else none

/-- The heuristic classifier of phase 2: the entity rule, then (for
adjective/adverb flags on words longer than one character) the sentiment rule
with the external scorer; a scorer failure (`none`) keeps the entity result.
Scores are modelled as rationals, the source's thresholds being the Python
floats 0.6 and 0.4. -/
def heuristicLabel (flag : String) (word : List Char)
    (scorer : List Char → Option ℚ) : Option (String × String) :=
  if (flag = "a" ∨ flag = "ad" ∨ flag = "d") ∧ 1 < word.length then
    match scorer word with
    | some sc =>
      if (6 : ℚ)/10 < sc ∨ sc < (4 : ℚ)/10 then some ("情感标注", "情感")
      else classifyEntity flag
    | none => classifyEntity flag
  else classifyEntity flag

/-- One token of phase 2 of `auto_annotate`.  A token whose text is a key of
the knowledge-base snapshot is skipped (the cursor moving to after its next
occurrence — and to `-1` when there is none, exactly as the source's
`current_index = content.find(word, current_index)` leaves it).  Any other
token is classified; a classified token found from the cursor is committed
unless it overlaps a claimed position; the cursor advances past the found
occurrence, or by the token's length when the search failed. -/
def phase2Step (content : List Char) (kbKeys : List (List Char))
    (scorer : List Char → Option ℚ) (acc : RunState × Int)
    (tok : List Char × String) : RunState × Int :=
  let st := acc.1
  let cursor := acc.2
  let word := tok.1
  let flag := tok.2
  if word ∈ kbKeys then
    let c := pyFind content word cursor
    (st, if c ≠ -1 then c + word.length else c)
  else
    let s := pyFind content word cursor
    let st' :=
      match heuristicLabel flag word scorer with
      | some tl =>
        if s ≠ -1 then commit st tl.1 s.toNat (s.toNat + word.length) word tl.2 else st
      | none => st
    (st', if s ≠ -1 then s + word.length else cursor + word.length)

/-- Phase 2 of `auto_annotate`: the jieba token loop, threading the claimed
positions and the offset-recovery cursor (which starts at 0). -/
def phase2Run (content : List Char) (kbKeys : List (List Char))
    (scorer : List Char → Option ℚ) (tokens : List (List Char × String))
    (st : RunState) : RunState × Int :=
  tokens.foldl (phase2Step content kbKeys scorer) (st, 0)

/-! The date patterns of phase 3, as a hand-rolled matcher for the source's
combined alternation.  Each `alt` function takes the text from the current
position and yields the number of characters the alternative matches, with
Python `re`'s semantics: alternatives tried in written order, quantifiers
greedy with backtracking. -/

/-- Exactly four decimal digits, then the continuation. -/
def d4 (k : List Char → Option Nat) : List Char → Option Nat
  | a :: b :: c :: d :: rest =>
    if a.isDigit && b.isDigit && c.isDigit && d.isDigit then (k rest).map (· + 4)
    else none
  | _ => none

/-- Greedy `\d{1,2}` with backtracking into the continuation `k`. -/
def tryD12 (k : List Char → Option Nat) : List Char → Option Nat
  | a :: b :: rest =>
    if a.isDigit then
      if b.isDigit then
        match k rest with
        | some n => some (n + 2)
        | none => (k (b :: rest)).map (· + 1)
      else (k (b :: rest)).map (· + 1)
    else none
  | [a] => if a.isDigit then (k []).map (· + 1) else none
  | [] => none

/-- One separator character accepted by `p`, then the continuation. -/
def matchSep (p : Char → Bool) (k : List Char → Option Nat) : List Char → Option Nat
  | c :: rest => if p c then (k rest).map (· + 1) else none
  | [] => none

/-- The optional trailing `日` of patterns 1 and 2. -/
def matchEndDay : List Char → Option Nat
  | '日' :: _ => some 1
  | _ => some 0

/-- A fixed set of literal alternatives, tried in order. -/
def litAlts (words : List (List Char)) (s : List Char) : Option Nat :=
  match words.find? (fun w => s.take w.length == w) with
  | some w => some w.length
  | none => none

/-- `(\d{4})(?:年|-|/)(\d{1,2})(?:月|-|/)(\d{1,2})(?:日)?` -/
def alt1 : List Char → Option Nat :=
  d4 (matchSep (fun c => c = '年' || c = '-' || c = '/')
    (tryD12 (matchSep (fun c => c = '月' || c = '-' || c = '/') (tryD12 matchEndDay))))

/-- `(\d{1,2})(?:月|-|/)(\d{1,2})(?:日)?` -/
def alt2 : List Char → Option Nat :=
  tryD12 (matchSep (fun c => c = '月' || c = '-' || c = '/') (tryD12 matchEndDay))

/-- `(\d{4})(?:年)(\d{1,2})(?:月)` -/
def alt3 : List Char → Option Nat :=
  d4 (matchSep (fun c => c = '年') (tryD12 (matchSep (fun c => c = '月') (fun _ => some 0))))

/-- `(?:今年|去年|明年|今天|明天|昨天)` -/
def alt4 : List Char → Option Nat :=
  litAlts [['今','年'], ['去','年'], ['明','年'], ['今','天'], ['明','天'], ['昨','天']]

/-- `(?:本月|上月|下月)` -/
def alt5 : List Char → Option Nat :=
  litAlts [['本','月'], ['上','月'], ['下','月']]

/-- `(?:星期|周)(?:一|二|三|四|五|六|日|天)` -/
def alt6 (s : List Char) : Option Nat :=
  if s.take 2 == ['星','期'] then
    match s.drop 2 with
    | c :: _ => if c ∈ ['一','二','三','四','五','六','日','天'] then some 3 else none
    | [] => none
  else if s.take 1 == ['周'] then
    match s.drop 1 with
    | c :: _ => if c ∈ ['一','二','三','四','五','六','日','天'] then some 2 else none
    | [] => none
  else none

/-- The combined alternation `'|'.join(date_patterns)` at one position:
the first alternative that matches wins. -/
def matchDateAt (s : List Char) : Option Nat :=
  (alt1 s).orElse fun _ => (alt2 s).orElse fun _ => (alt3 s).orElse fun _ =>
    (alt4 s).orElse fun _ => (alt5 s).orElse fun _ => alt6 s

/-- `re.finditer` over the combined alternation: scan left to right, emit each
match and resume after its end; every alternative consumes at least one
character, so `content.length + 2` steps of fuel cover the whole scan. -/
def scanDates (content : List Char) : Nat → Nat → List (Nat × Nat)
  | _, 0 => []
  | pos, fuel + 1 =>
    match matchDateAt (content.drop pos) with
    | some len => (pos, pos + len) :: scanDates content (pos + len) fuel
    | none =>
      if pos < content.length then scanDates content (pos + 1) fuel else []

/-- Phase 3 of `auto_annotate`: each regex match becomes a "时间" candidate,
committed unless it overlaps a claimed position. -/
def phase3 (content : List Char) (st : RunState) : RunState :=
  (scanDates content 0 (content.length + 2)).foldl
    (fun st m => commit st "命名实体" m.1 m.2 ((content.drop m.1).take (m.2 - m.1)) "时间") st

/-- The document record of the storage layer: its immutable text, its status
(0 not started, 1 in progress, 2 completed) and its stored rows. -/
structure DocState where
  content : List Char
  status : Nat
  anns : List Ann
deriving Repr, DecidableEq

/-- The three phases of one `auto_annotate` run over a text, from an empty
claimed-position set. -/
def annRun (content : List Char) (kb : List (List Char × String))
    (tokens : List (List Char × String)) (scorer : List Char → Option ℚ) : RunState :=
  phase3 content
    (phase2Run content (kb.map Prod.fst) scorer tokens (kbPhase content kb ⟨[], []⟩)).1

/-- The `auto_annotate` route: the document's old rows are deleted, the three
phases run over its text with the given knowledge-base snapshot, tokenizer
output and scorer, and the document's status becomes 1 (in progress). -/
def auto_annotate (kb : List (List Char × String))
    (tokens : List (List Char × String)) (scorer : List Char → Option ℚ)
    (d : DocState) : DocState :=
  { content := d.content, status := 1,
    anns := (annRun d.content kb tokens scorer).anns }

/-- The source's `add_to_knowledge_base`: insert a new entity only when no
row with that exact text exists; the Bool reports whether a row was added. -/
def add_to_knowledge_base (kb : List KnowledgeEntity) (text : List Char)
    (label source : String) : List KnowledgeEntity × Bool :=
  match kb.find? (fun en => en.text == text) with
  | some _ => (kb, false)
  | none => (kb ++ [⟨text, label, source⟩], true)

/-- The `save_annotation` API route (named `save_ann` here): the submitted
span is stored as a new row with no overlap check against the document's
existing rows, the document's status becomes 1, and the pair is promoted to
the knowledge base with source "manual". -/
def save_ann (d : DocState) (kb : List KnowledgeEntity) (tag_type : String)
    (s e : Nat) (text : List Char) (label : String) :
    DocState × List KnowledgeEntity :=
  ({ content := d.content, status := 1, anns := d.anns ++ [⟨tag_type, s, e, text, label⟩] },
   (add_to_knowledge_base kb text label "manual").1)

/-- Modelled from the spec: the Document-Level Classifier's category rule
(spec §4.6) has no code under `src/` (it belongs to the repository's other
observed variant); per the spec it returns the first keyword bucket, in
declared order, one of whose keywords occurs anywhere in the raw text, and
"other" when no bucket matches. -/
def classify_document (buckets : List (String × List (List Char)))
    (content : List Char) : String :=
  match buckets.find? (fun b => b.2.any fun kw => (findFrom content kw 0).isSome) with
  | some b => b.1
  | none => "other"

/-- Modelled from the spec: the Document-Level Classifier's sentiment rule
(spec §4.6) has no code under `src/`; per the spec the external scorer runs
on the full text (a failure defaulting to score 0.5), and the score is
bucketed: `> 0.6` positive, `< 0.4` negative, otherwise neutral. -/
def doc_sentiment (scorer : List Char → Option ℚ) (content : List Char) :
    ℚ × String :=
  let score := (scorer content).getD (1/2)
  (score,
    if (6 : ℚ)/10 < score then "positive"
    else if score < (4 : ℚ)/10 then "negative"
    else "neutral")

/-- The surface text 北京大学 of the spec's longest-match example. -/
def bjdx : List Char := ['北', '京', '大', '学']

/-- The surface text 北京 of the spec's longest-match example. -/
def bj : List Char := ['北', '京']

/-- The knowledge-base snapshot of the spec's longest-match example:
北京大学 is an organization (组织), 北京 a place (地名). -/
def kbBJ : List (List Char × String) := [(bjdx, "组织"), (bj, "地名")]

/-- The organization row the knowledge-base matcher commits for an occurrence
of 北京大学 at position `i`. -/
def annBJDX (i : Nat) : Ann :=
  ⟨"命名实体", i, i + 4, bjdx, "组织"⟩

/-- The two-save scenario of the manual path: spans `[0,2)` then `[1,3)` on
one three-character document, starting from an empty knowledge base. -/
def twoSaves : DocState × List KnowledgeEntity :=
  save_ann (save_ann ⟨['a','b','c'], 0, []⟩ [] "命名实体" 0 2 ['a','b'] "人名").1
    (save_ann ⟨['a','b','c'], 0, []⟩ [] "命名实体" 0 2 ['a','b'] "人名").2
    "命名实体" 1 3 ['b','c'] "地名"

/-- Character position `p` lies in the row's half-open range. -/
def annRange (a : Ann) (p : Nat) : Prop :=
  a.start_index ≤ p ∧ p < a.end_index

instance (a : Ann) (p : Nat) : Decidable (annRange a p) := by
  unfold annRange; infer_instance

/-- Two rows share no character position. -/
def DisjAnn (a b : Ann) : Prop :=
  ∀ p : Nat, ¬(annRange a p ∧ annRange b p)

/-- Invariant of a run's state: the claimed positions are exactly the
positions of the committed rows, and the committed rows are pairwise
disjoint. -/
def Inv (st : RunState) : Prop :=
  (∀ p : Nat, p ∈ st.positions ↔ ∃ a ∈ st.anns, annRange a p) ∧
  st.anns.Pairwise DisjAnn

/-- `st'` extends `st`: the committed rows and the claimed positions of `st`
stay, new ones only being appended. -/
def Extends (st st' : RunState) : Prop :=
  (∃ t, st'.anns = st.anns ++ t) ∧ (∃ q, st'.positions = st.positions ++ q)

theorem disjAnn_symm : Symmetric DisjAnn := by
  intro a b h p hp
  exact h p ⟨hp.2, hp.1⟩

theorem mem_rangeList {s e p : Nat} : p ∈ rangeList s e ↔ s ≤ p ∧ p < e := by
  simp only [rangeList, List.mem_map, List.mem_range]
  constructor
  · rintro ⟨k, hk, rfl⟩
    omega
  · rintro ⟨h1, h2⟩
    exact ⟨p - s, by omega, by omega⟩


theorem inv_empty : Inv ⟨[], []⟩ := by
  constructor
  · intro p
    simp
  · exact List.Pairwise.nil

theorem commit_inv {st : RunState} (h : Inv st) (tag : String) (s e : Nat)
    (text : List Char) (label : String) : Inv (commit st tag s e text label) := by
  unfold commit
  split
  · exact h
  · rename_i hno
    push_neg at hno
    constructor
    · intro p
      constructor
      · intro hp
        rcases List.mem_append.mp hp with hp | hp
        · obtain ⟨a, ha, hap⟩ := (h.1 p).mp hp
          exact ⟨a, List.mem_append_left _ ha, hap⟩
        · refine ⟨⟨tag, s, e, text, label⟩, List.mem_append_right _ (by simp), ?_⟩
          exact mem_rangeList.mp hp
      · rintro ⟨a, ha, hap⟩
        rcases List.mem_append.mp ha with ha | ha
        · exact List.mem_append_left _ ((h.1 p).mpr ⟨a, ha, hap⟩)
        · simp only [List.mem_singleton] at ha
          subst ha
          exact List.mem_append_right _ (mem_rangeList.mpr ⟨hap.1, hap.2⟩)
    · refine List.pairwise_append.mpr ⟨h.2, List.pairwise_singleton _ _, ?_⟩
      intro a ha b hb p hp
      simp only [List.mem_singleton] at hb
      subst hb
      exact hno p (mem_rangeList.mpr ⟨hp.2.1, hp.2.2⟩) ((h.1 p).mpr ⟨a, ha, hp.1⟩)

theorem kbKeyLoop_inv (content key : List Char) (label : String) :
    ∀ (fuel : Nat) (st : RunState) (start : Nat), Inv st →
      Inv (kbKeyLoop content key label fuel st start) := by
  intro fuel
  induction fuel with
  | zero => intro st start h; exact h
  | succ n ih =>
    intro st start h
    unfold kbKeyLoop
    cases findFrom content key start with
    | none => exact h
    | some s => exact ih _ _ (commit_inv h _ _ _ _ _)

theorem foldl_inv {α : Type} (f : RunState → α → RunState)
    (hf : ∀ st a, Inv st → Inv (f st a)) :
    ∀ (l : List α) (st : RunState), Inv st → Inv (l.foldl f st) := by
  intro l
  induction l with
  | nil => intro st h; exact h
  | cons x xs ih => intro st h; exact ih _ (hf st x h)

theorem kbPhase_inv (content : List Char) (kb : List (List Char × String))
    (st : RunState) (h : Inv st) : Inv (kbPhase content kb st) :=
  foldl_inv _ (fun st kv h => kbKeyLoop_inv content kv.1 kv.2 _ st 0 h) _ st h

theorem phase2Step_inv (content : List Char) (kbKeys : List (List Char))
    (scorer : List Char → Option ℚ) (acc : RunState × Int)
    (tok : List Char × String) (h : Inv acc.1) :
    Inv (phase2Step content kbKeys scorer acc tok).1 := by
  unfold phase2Step
  dsimp only
  split
  · exact h
  · cases heuristicLabel tok.2 tok.1 scorer with
    | none => exact h
    | some tl =>
      dsimp only
      split
      · exact commit_inv h _ _ _ _ _
      · exact h

theorem phase2_foldl_inv (content : List Char) (kbKeys : List (List Char))
    (scorer : List Char → Option ℚ) :
    ∀ (tokens : List (List Char × String)) (acc : RunState × Int), Inv acc.1 →
      Inv (tokens.foldl (phase2Step content kbKeys scorer) acc).1 := by
  intro tokens
  induction tokens with
  | nil => intro acc h; exact h
  | cons t ts ih =>
    intro acc h
    exact ih _ (phase2Step_inv content kbKeys scorer acc t h)

theorem phase3_inv (content : List Char) (st : RunState) (h : Inv st) :
    Inv (phase3 content st) :=
  foldl_inv _ (fun _ _ h => commit_inv h _ _ _ _ _) _ st h

theorem annRun_inv (content : List Char) (kb : List (List Char × String))
    (tokens : List (List Char × String)) (scorer : List Char → Option ℚ) :
    Inv (annRun content kb tokens scorer) :=
  phase3_inv _ _ (phase2_foldl_inv _ _ _ tokens _ (kbPhase_inv _ _ _ inv_empty))

theorem extends_refl (st : RunState) : Extends st st :=
  ⟨⟨[], by simp⟩, ⟨[], by simp⟩⟩

theorem extends_trans {a b c : RunState} (h1 : Extends a b) (h2 : Extends b c) :
    Extends a c := by
  obtain ⟨⟨t1, ht1⟩, ⟨q1, hq1⟩⟩ := h1
  obtain ⟨⟨t2, ht2⟩, ⟨q2, hq2⟩⟩ := h2
  exact ⟨⟨t1 ++ t2, by simp [ht2, ht1]⟩, ⟨q1 ++ q2, by simp [hq2, hq1]⟩⟩

theorem extends_mem_anns {st st' : RunState} (h : Extends st st') {a : Ann}
    (ha : a ∈ st.anns) : a ∈ st'.anns := by
  obtain ⟨⟨t, ht⟩, -⟩ := h
  rw [ht]
  exact List.mem_append_left _ ha

theorem commit_extends (st : RunState) (tag : String) (s e : Nat)
    (text : List Char) (label : String) :
    Extends st (commit st tag s e text label) := by
  unfold commit
  split
  · exact extends_refl st
  · exact ⟨⟨_, rfl⟩, ⟨_, rfl⟩⟩

theorem kbKeyLoop_extends (content key : List Char) (label : String) :
    ∀ (fuel : Nat) (st : RunState) (start : Nat),
      Extends st (kbKeyLoop content key label fuel st start) := by
  intro fuel
  induction fuel with
  | zero => intro st start; exact extends_refl st
  | succ n ih =>
    intro st start
    unfold kbKeyLoop
    cases findFrom content key start with
    | none => exact extends_refl st
    | some s => exact extends_trans (commit_extends st _ _ _ _ _) (ih _ _)

theorem foldl_extends {α : Type} (f : RunState → α → RunState)
    (hf : ∀ st a, Extends st (f st a)) :
    ∀ (l : List α) (st : RunState), Extends st (l.foldl f st) := by
  intro l
  induction l with
  | nil => intro st; exact extends_refl st
  | cons x xs ih => intro st; exact extends_trans (hf st x) (ih _)

theorem kbPhase_extends (content : List Char) (kb : List (List Char × String))
    (st : RunState) : Extends st (kbPhase content kb st) := by
  unfold kbPhase
  exact foldl_extends
    (fun (st : RunState) (kv : List Char × String) =>
      kbKeyLoop content kv.1 kv.2 (content.length + 1) st 0)
    (fun st kv => kbKeyLoop_extends content kv.1 kv.2 (content.length + 1) st 0) _ st

theorem phase2Step_extends (content : List Char) (kbKeys : List (List Char))
    (scorer : List Char → Option ℚ) (acc : RunState × Int)
    (tok : List Char × String) :
    Extends acc.1 (phase2Step content kbKeys scorer acc tok).1 := by
  unfold phase2Step
  dsimp only
  split
  · exact extends_refl _
  · cases heuristicLabel tok.2 tok.1 scorer with
    | none => exact extends_refl _
    | some tl =>
      dsimp only
      split
      · exact commit_extends _ _ _ _ _ _
      · exact extends_refl _

theorem phase2_foldl_extends (content : List Char) (kbKeys : List (List Char))
    (scorer : List Char → Option ℚ) :
    ∀ (tokens : List (List Char × String)) (acc : RunState × Int),
      Extends acc.1 (tokens.foldl (phase2Step content kbKeys scorer) acc).1 := by
  intro tokens
  induction tokens with
  | nil => intro acc; exact extends_refl _
  | cons t ts ih =>
    intro acc
    exact extends_trans (phase2Step_extends content kbKeys scorer acc t) (ih _)

theorem phase3_extends (content : List Char) (st : RunState) :
    Extends st (phase3 content st) :=
  foldl_extends _ (fun st _ => commit_extends st _ _ _ _ _) _ st

/-- Claim C1: for every document text, every knowledge-base snapshot and every
tokenizer/scorer output, the rows produced by one run of `auto_annotate` are
pairwise disjoint: no two of their half-open ranges share a character index. -/
theorem c1_auto_annotate_no_overlap (kb tokens : List (List Char × String))
    (scorer : List Char → Option ℚ) (d : DocState) :
    (auto_annotate kb tokens scorer d).anns.Pairwise DisjAnn :=
  (annRun_inv d.content kb tokens scorer).2

/-- Claim C4: `auto_annotate` is deterministic — two runs over documents with
the same text, under the same knowledge-base snapshot and the same tokenizer
and scorer outputs, produce identical row lists (whatever rows or status the
documents carried before), and re-running is idempotent. -/
theorem c4_auto_annotate_deterministic (kb tokens : List (List Char × String))
    (scorer : List Char → Option ℚ) (d1 d2 : DocState)
    (h : d1.content = d2.content) :
    (auto_annotate kb tokens scorer d1).anns = (auto_annotate kb tokens scorer d2).anns
    ∧ auto_annotate kb tokens scorer (auto_annotate kb tokens scorer d1)
        = auto_annotate kb tokens scorer d1 := by
  constructor
  · simp only [auto_annotate, h]
  · rfl

/-- Witness for C4: two documents with the same text but different prior rows
and status yield the same rows. -/
theorem c4_auto_annotate_deterministic_witness :
    (auto_annotate [] [] (fun _ => none) ⟨['x'], 0, []⟩).anns
      = (auto_annotate [] [] (fun _ => none)
          ⟨['x'], 2, [⟨"命名实体", 0, 1, ['x'], "人名"⟩]⟩).anns
    ∧ auto_annotate [] [] (fun _ => none)
        (auto_annotate [] [] (fun _ => none) ⟨['x'], 0, []⟩)
      = auto_annotate [] [] (fun _ => none) ⟨['x'], 0, []⟩ :=
  c4_auto_annotate_deterministic [] [] (fun _ => none) ⟨['x'], 0, []⟩
    ⟨['x'], 2, [⟨"命名实体", 0, 1, ['x'], "人名"⟩]⟩ rfl

/-- Claim C5: `add_to_knowledge_base` inserts iff no row with that exact text
exists, reports exactly whether it inserted, leaves the table unchanged
otherwise, never changes an existing row, and a second call with the same
text changes nothing and returns false — so a double call from an initially
absent text leaves exactly one row, carrying the first call's label. -/
theorem add_kb_absent (kb : List KnowledgeEntity) (text : List Char)
    (label source : String) (h : ∀ e ∈ kb, e.text ≠ text) :
    add_to_knowledge_base kb text label source
      = (kb ++ [⟨text, label, source⟩], true) := by
  unfold add_to_knowledge_base
  cases hf : kb.find? (fun en => en.text == text) with
  | none => rfl
  | some en =>
    exact absurd (by simpa using List.find?_some hf)
      (h en (List.mem_of_find?_eq_some hf))

theorem add_kb_present (kb : List KnowledgeEntity) (text : List Char)
    (label source : String) (e : KnowledgeEntity) (he : e ∈ kb)
    (ht : e.text = text) :
    add_to_knowledge_base kb text label source = (kb, false) := by
  unfold add_to_knowledge_base
  cases hf : kb.find? (fun en => en.text == text) with
  | some en => rfl
  | none =>
    have := List.find?_eq_none.mp hf e he
    simp [ht] at this

theorem c5_add_to_knowledge_base_first_writer_wins :
    ∀ (kb : List KnowledgeEntity) (text : List Char) (label source : String),
      ((add_to_knowledge_base kb text label source).2 = true ↔ ∀ e ∈ kb, e.text ≠ text)
    ∧ ((add_to_knowledge_base kb text label source).2 = true →
        (add_to_knowledge_base kb text label source).1 = kb ++ [⟨text, label, source⟩])
    ∧ ((add_to_knowledge_base kb text label source).2 = false →
        (add_to_knowledge_base kb text label source).1 = kb)
    ∧ (∀ label2 source2,
        (add_to_knowledge_base (add_to_knowledge_base kb text label source).1
            text label2 source2).2 = false
      ∧ (add_to_knowledge_base (add_to_knowledge_base kb text label source).1
            text label2 source2).1 = (add_to_knowledge_base kb text label source).1)
    ∧ ((∀ e ∈ kb, e.text ≠ text) →
        ((add_to_knowledge_base kb text label source).1.filter
            (fun e => e.text == text)) = [⟨text, label, source⟩]) := by
  intro kb text label source
  by_cases hex : ∀ e ∈ kb, e.text ≠ text
  · have hval := add_kb_absent kb text label source hex
    refine ⟨?_, ?_, ?_, ?_, ?_⟩
    · rw [hval]
      exact iff_of_true rfl hex
    · intro _
      rw [hval]
    · intro hfalse
      rw [hval] at hfalse
      simp at hfalse
    · intro label2 source2
      have hval2 := add_kb_present (kb ++ [⟨text, label, source⟩]) text
        label2 source2 ⟨text, label, source⟩ (by simp) rfl
      rw [hval]
      exact ⟨by rw [show ((kb ++ [(⟨text, label, source⟩ : KnowledgeEntity)], true).1)
          = kb ++ [(⟨text, label, source⟩ : KnowledgeEntity)] from rfl, hval2],
        by rw [show ((kb ++ [(⟨text, label, source⟩ : KnowledgeEntity)], true).1)
          = kb ++ [(⟨text, label, source⟩ : KnowledgeEntity)] from rfl, hval2]⟩
    · intro _
      rw [hval]
      show ((kb ++ [(⟨text, label, source⟩ : KnowledgeEntity)]).filter
        (fun e => e.text == text)) = _
      rw [List.filter_append]
      have h1 : kb.filter (fun e => e.text == text) = [] := by
        rw [List.filter_eq_nil_iff]
        intro e he
        simpa using hex e he
      simp [h1]
  · push_neg at hex
    obtain ⟨e, he, ht⟩ := hex
    have hval := add_kb_present kb text label source e he ht
    refine ⟨?_, ?_, ?_, ?_, ?_⟩
    · rw [hval]
      refine iff_of_false (by simp) ?_
      push_neg
      exact ⟨e, he, ht⟩
    · intro htrue
      rw [hval] at htrue
      simp at htrue
    · intro _
      rw [hval]
    · intro label2 source2
      have hval2 := add_kb_present kb text label2 source2 e he ht
      rw [hval]
      exact ⟨by rw [show ((kb, false).1) = kb from rfl, hval2],
        by rw [show ((kb, false).1) = kb from rfl, hval2]⟩
    · intro hall
      exact absurd ht (hall e he)

/-- Claim C10 (evaluation): the manual save path stores spans with no overlap
check: saving `[0,2)` then `[1,3)` on one document leaves two rows whose
ranges share character index 1. -/
theorem c10_save_ann_overlap :
    twoSaves.1.anns
      = [⟨"命名实体", 0, 2, ['a','b'], "人名"⟩, ⟨"命名实体", 1, 3, ['b','c'], "地名"⟩]
    ∧ ∃ a ∈ twoSaves.1.anns, ∃ b ∈ twoSaves.1.anns,
        a ≠ b ∧ ∃ p, annRange a p ∧ annRange b p := by
  refine ⟨by decide, ⟨"命名实体", 0, 2, ['a','b'], "人名"⟩, by decide,
    ⟨"命名实体", 1, 3, ['b','c'], "地名"⟩, by decide, by decide, 1, by decide, by decide⟩

theorem classifyEntity_ne_sentiment (flag : String) :
    classifyEntity flag ≠ some ("情感标注", "情感") := by
  unfold classifyEntity
  split_ifs <;> simp

/-- Claim C6: the heuristic classifier assigns the sentiment label exactly
when the part-of-speech flag is in the adjective/adverb set, the word is
longer than one character, and the scorer returns a score above 0.6 or below
0.4; in particular a score of exactly 0.5, 0.4, or 0.6 yields no sentiment
label. -/
theorem c6_sentiment_thresholds :
    ∀ (flag : String) (word : List Char) (scorer : List Char → Option ℚ),
      (heuristicLabel flag word scorer = some ("情感标注", "情感") ↔
        ((flag = "a" ∨ flag = "ad" ∨ flag = "d") ∧ 1 < word.length ∧
          ∃ sc, scorer word = some sc ∧ ((6 : ℚ)/10 < sc ∨ sc < (4 : ℚ)/10)))
    ∧ (∀ sc : ℚ, scorer word = some sc →
        sc = 1/2 ∨ sc = 2/5 ∨ sc = 3/5 →
        heuristicLabel flag word scorer ≠ some ("情感标注", "情感")) := by
  intro flag word scorer
  have hiff : heuristicLabel flag word scorer = some ("情感标注", "情感") ↔
      ((flag = "a" ∨ flag = "ad" ∨ flag = "d") ∧ 1 < word.length ∧
        ∃ sc, scorer word = some sc ∧ ((6 : ℚ)/10 < sc ∨ sc < (4 : ℚ)/10)) := by
    unfold heuristicLabel
    split
    · rename_i hguard
      cases hsc : scorer word with
      | none =>
        dsimp only
        constructor
        · intro h
          exact absurd h (classifyEntity_ne_sentiment flag)
        · rintro ⟨-, -, sc, hsc2, -⟩
          simp at hsc2
      | some sc =>
        dsimp only
        by_cases hpol : (6 : ℚ)/10 < sc ∨ sc < (4 : ℚ)/10
        · rw [if_pos hpol]
          exact iff_of_true rfl ⟨hguard.1, hguard.2, sc, rfl, hpol⟩
        · rw [if_neg hpol]
          constructor
          · intro h
            exact absurd h (classifyEntity_ne_sentiment flag)
          · rintro ⟨-, -, sc2, hsc2, hpol2⟩
            obtain rfl : sc = sc2 := Option.some.inj hsc2
            exact absurd hpol2 hpol
    · rename_i hguard
      constructor
      · intro h
        exact absurd h (classifyEntity_ne_sentiment flag)
      · rintro ⟨h1, h2, -⟩
        exact absurd ⟨h1, h2⟩ hguard
  refine ⟨hiff, ?_⟩
  intro sc hsc hval h
  obtain ⟨-, -, sc2, hsc2, hpol⟩ := hiff.mp h
  rw [hsc] at hsc2
  obtain rfl : sc = sc2 := Option.some.inj hsc2
  rcases hval with rfl | rfl | rfl <;> rcases hpol with h2 | h2 <;> norm_num at h2

/-- Claim C8: a token whose text equals a knowledge-base key is skipped by
phase 2 entirely (no candidate at all, whatever its flag, score or
position), while any other token is classified by the heuristic rules and —
when a position is found — rejected only by positional overlap. -/
theorem c8_kb_text_equality_skip :
    ∀ (content : List Char) (kbKeys : List (List Char))
      (scorer : List Char → Option ℚ) (st : RunState) (cursor : Int)
      (word : List Char) (flag : String),
      (word ∈ kbKeys →
        (phase2Step content kbKeys scorer (st, cursor) (word, flag)).1 = st)
    ∧ (word ∉ kbKeys → ∀ tag label,
        heuristicLabel flag word scorer = some (tag, label) →
        ∀ s : Nat, pyFind content word cursor = (s : Int) →
          (phase2Step content kbKeys scorer (st, cursor) (word, flag)).1.anns
            = st.anns ++ (if ∃ p ∈ rangeList s (s + word.length), p ∈ st.positions
                then [] else [⟨tag, s, s + word.length, word, label⟩])) := by
  intro content kbKeys scorer st cursor word flag
  constructor
  · intro hmem
    unfold phase2Step
    dsimp only
    rw [if_pos hmem]
  · intro hmem tag label hlbl s hs
    unfold phase2Step
    dsimp only
    rw [if_neg hmem, hlbl, hs]
    dsimp only
    have hne : ((s : Int) ≠ -1) := by omega
    rw [if_pos hne]
    have htn : ((s : Int)).toNat = s := Int.toNat_natCast s
    rw [htn]
    unfold commit
    split
    · simp
    · rfl

/-- Claim C3: `auto_annotate` runs its sources in strict priority order —
knowledge base, then heuristics, then temporal patterns — each source only
appending rows, every row of a later source disjoint from every
knowledge-base row, and a candidate is committed iff none of its positions is
already claimed. -/
theorem c3_priority_order :
    ∀ (kb tokens : List (List Char × String)) (scorer : List Char → Option ℚ)
      (d : DocState),
      (∃ h t,
        (auto_annotate kb tokens scorer d).anns
          = (kbPhase d.content kb ⟨[], []⟩).anns ++ h ++ t
        ∧ (phase2Run d.content (kb.map Prod.fst) scorer tokens
            (kbPhase d.content kb ⟨[], []⟩)).1.anns
          = (kbPhase d.content kb ⟨[], []⟩).anns ++ h
        ∧ (∀ a ∈ (kbPhase d.content kb ⟨[], []⟩).anns, ∀ b,
            b ∈ h ∨ b ∈ t → DisjAnn a b))
    ∧ (∀ p : Nat, p ∈ (annRun d.content kb tokens scorer).positions ↔
        ∃ a ∈ (auto_annotate kb tokens scorer d).anns, annRange a p)
    ∧ (∀ (st : RunState) (tag : String) (s e : Nat) (text : List Char)
        (label : String),
        ((∃ p, s ≤ p ∧ p < e ∧ p ∈ st.positions) →
          commit st tag s e text label = st)
      ∧ ((∀ p, s ≤ p → p < e → p ∉ st.positions) →
          (commit st tag s e text label).anns
            = st.anns ++ [⟨tag, s, e, text, label⟩])) := by
  intro kb tokens scorer d
  refine ⟨?_, (annRun_inv d.content kb tokens scorer).1, ?_⟩
  · obtain ⟨⟨h, hh0⟩, -⟩ := phase2_foldl_extends d.content (kb.map Prod.fst) scorer
      tokens (kbPhase d.content kb ⟨[], []⟩, 0)
    obtain ⟨⟨t, ht⟩, -⟩ := phase3_extends d.content
      (phase2Run d.content (kb.map Prod.fst) scorer tokens
        (kbPhase d.content kb ⟨[], []⟩)).1
    have hh : (phase2Run d.content (kb.map Prod.fst) scorer tokens
        (kbPhase d.content kb ⟨[], []⟩)).1.anns
        = (kbPhase d.content kb ⟨[], []⟩).anns ++ h := hh0
    have hall : (annRun d.content kb tokens scorer).anns
        = (kbPhase d.content kb ⟨[], []⟩).anns ++ (h ++ t) := by
      unfold annRun
      rw [ht, hh, List.append_assoc]
    refine ⟨h, t, ?_, hh, ?_⟩
    · show (annRun d.content kb tokens scorer).anns = _
      rw [hall, List.append_assoc]
    · intro a ha b hb
      have hinv := annRun_inv d.content kb tokens scorer
      have hpw := hinv.2
      rw [hall] at hpw
      have := (List.pairwise_append.mp hpw).2.2
      exact this a ha b (List.mem_append.mpr hb)
  · intro st tag s e text label
    constructor
    · rintro ⟨p, h1, h2, h3⟩
      unfold commit
      rw [if_pos ⟨p, mem_rangeList.mpr ⟨h1, h2⟩, h3⟩]
    · intro hno
      unfold commit
      rw [if_neg]
      rintro ⟨p, hp1, hp2⟩
      have := mem_rangeList.mp hp1
      exact hno p this.1 this.2 hp2

theorem occursAt_true_iff {s sub : List Char} {i : Nat} :
    occursAt s sub i = true ↔
      i + sub.length ≤ s.length ∧ (s.drop i).take sub.length = sub := by
  simp [occursAt]

theorem occursAt_getElem {s sub : List Char} {i t : Nat}
    (h : occursAt s sub i = true) (ht : t < sub.length) :
    s[i + t]? = sub[t]? := by
  obtain ⟨hlen, heq⟩ := occursAt_true_iff.mp h
  conv_rhs => rw [← heq]
  rw [List.getElem?_take_of_lt ht, List.getElem?_drop]

theorem bjdx_no_self_overlap {s : List Char} {a b : Nat}
    (ha : occursAt s bjdx a = true) (hb : occursAt s bjdx b = true)
    (hab : a < b) : a + 4 ≤ b := by
  by_contra hcon
  push_neg at hcon
  have h1 : s[b + 0]? = bjdx[0]? := occursAt_getElem hb (by decide)
  have h2 : s[a + (b - a)]? = bjdx[b - a]? := by
    refine occursAt_getElem ha ?_
    show b - a < bjdx.length
    rw [show bjdx.length = 4 from rfl]
    omega
  rw [show a + (b - a) = b + 0 from by omega] at h2
  have h3 : bjdx[0]? = bjdx[b - a]? := by rw [← h1, h2]
  have hd : b - a = 1 ∨ b - a = 2 ∨ b - a = 3 := by omega
  rcases hd with hd | hd | hd <;> rw [hd] at h3 <;> revert h3 <;> decide

theorem findFromAux_imp {s sub : List Char} :
    ∀ {fuel i j : Nat}, findFromAux s sub i fuel = some j →
      i ≤ j ∧ occursAt s sub j = true := by
  intro fuel
  induction fuel with
  | zero =>
    intro i j h
    simp [findFromAux] at h
  | succ n ih =>
    intro i j h
    unfold findFromAux at h
    by_cases hocc : occursAt s sub i = true
    · rw [if_pos hocc] at h
      obtain rfl := Option.some.inj h
      exact ⟨le_refl _, hocc⟩
    · rw [if_neg hocc] at h
      obtain ⟨h1, h2⟩ := ih h
      exact ⟨by omega, h2⟩

theorem findFromAux_complete {s sub : List Char} :
    ∀ (fuel : Nat) {i j : Nat}, occursAt s sub j = true → i ≤ j → j < i + fuel →
      ∃ r, findFromAux s sub i fuel = some r ∧ r ≤ j := by
  intro fuel
  induction fuel with
  | zero =>
    intro i j _ _ h
    omega
  | succ n ih =>
    intro i j hj hij hlt
    unfold findFromAux
    by_cases hocc : occursAt s sub i = true
    · exact ⟨i, by rw [if_pos hocc], hij⟩
    · have hne : i ≠ j := by
        rintro rfl
        exact hocc hj
      obtain ⟨r, hr, hrj⟩ := ih (i := i + 1) hj (by omega) (by omega)
      exact ⟨r, by rw [if_neg hocc]; exact hr, hrj⟩

theorem findFrom_complete {s sub : List Char} {start j : Nat}
    (hj : occursAt s sub j = true) (hsj : start ≤ j) :
    ∃ r, findFrom s sub start = some r ∧ start ≤ r ∧ r ≤ j ∧
      occursAt s sub r = true := by
  have hlen : j + sub.length ≤ s.length := (occursAt_true_iff.mp hj).1
  obtain ⟨r, hr, hrj⟩ :=
    findFromAux_complete (s.length + 1 - start) hj hsj (by omega)
  obtain ⟨h1, h2⟩ := findFromAux_imp hr
  exact ⟨r, hr, h1, hrj, h2⟩

theorem kbKeyLoop_bjdx_commits (content : List Char) :
    ∀ (fuel : Nat) (st : RunState) (c i : Nat),
      occursAt content bjdx i = true → c ≤ i →
      (∀ p ∈ st.positions, p < c) →
      content.length + 1 ≤ fuel + c →
      annBJDX i ∈ (kbKeyLoop content bjdx "组织" fuel st c).anns := by
  intro fuel
  induction fuel with
  | zero =>
    intro st c i hi hci hpos hfuel
    exfalso
    have := (occursAt_true_iff.mp hi).1
    omega
  | succ n ih =>
    intro st c i hi hci hpos hfuel
    obtain ⟨r, hr, hcr, hri, hoccr⟩ := findFrom_complete hi hci
    unfold kbKeyLoop
    rw [hr]
    have hb4 : bjdx.length = 4 := rfl
    have hkbt : kbTagType "组织" = "命名实体" := by decide
    have hcommit : commit st (kbTagType "组织") r (r + bjdx.length) bjdx "组织"
        = { anns := st.anns ++ [⟨kbTagType "组织", r, r + bjdx.length, bjdx, "组织"⟩],
            positions := st.positions ++ rangeList r (r + bjdx.length) } := by
      unfold commit
      rw [if_neg]
      rintro ⟨p, hp1, hp2⟩
      have hlt := hpos p hp2
      have hge := (mem_rangeList.mp hp1).1
      omega
    by_cases hreq : r = i
    · subst hreq
      refine extends_mem_anns (kbKeyLoop_extends content bjdx "组织" n _ _) ?_
      rw [hcommit]
      simp [annBJDX, hkbt, hb4]
    · have hlt : r < i := by omega
      have hsep : r + 4 ≤ i := bjdx_no_self_overlap hoccr hi hlt
      refine ih _ (r + bjdx.length) i hi (by omega) ?_ (by omega)
      intro p hp
      rw [hcommit] at hp
      rcases List.mem_append.mp hp with hp | hp
      · have := hpos p hp
        omega
      · have := (mem_rangeList.mp hp).2
        omega

theorem kbPhase_kbBJ (content : List Char) :
    kbPhase content kbBJ ⟨[], []⟩
      = kbKeyLoop content bj "地名" (content.length + 1)
          (kbKeyLoop content bjdx "组织" (content.length + 1) ⟨[], []⟩ 0) 0 := rfl

/-- Claim C2: with the snapshot {北京大学 → 组织, 北京 → 地名}, the matcher
scans the longer key first, so every occurrence of 北京大学 is committed as
one organization span covering all four characters, that span is the only
row touching those positions, and no 北京 row overlaps them. -/
theorem c2_longest_match_wins (tokens : List (List Char × String))
    (scorer : List Char → Option ℚ) (d : DocState) (i : Nat)
    (hocc : occursAt d.content bjdx i = true) :
    annBJDX i ∈ (auto_annotate kbBJ tokens scorer d).anns
    ∧ (∀ a ∈ (auto_annotate kbBJ tokens scorer d).anns,
        (∃ p, annRange a p ∧ i ≤ p ∧ p < i + 4) → a = annBJDX i)
    ∧ ¬(∃ a ∈ (auto_annotate kbBJ tokens scorer d).anns,
        a.selected_text = bj ∧ ∃ p, annRange a p ∧ i ≤ p ∧ p < i + 4) := by
  have h1 : annBJDX i
      ∈ (kbKeyLoop d.content bjdx "组织" (d.content.length + 1) ⟨[], []⟩ 0).anns := by
    refine kbKeyLoop_bjdx_commits d.content (d.content.length + 1) ⟨[], []⟩ 0 i hocc
      (Nat.zero_le i) ?_ (by omega)
    intro p hp
    simp at hp
  have hkb : annBJDX i ∈ (kbPhase d.content kbBJ ⟨[], []⟩).anns := by
    rw [kbPhase_kbBJ]
    exact extends_mem_anns (kbKeyLoop_extends d.content bj "地名" _ _ _) h1
  have hmem : annBJDX i ∈ (auto_annotate kbBJ tokens scorer d).anns := by
    show annBJDX i ∈ (annRun d.content kbBJ tokens scorer).anns
    unfold annRun
    exact extends_mem_anns (phase3_extends _ _)
      (extends_mem_anns
        (phase2_foldl_extends d.content (kbBJ.map Prod.fst) scorer tokens
          (kbPhase d.content kbBJ ⟨[], []⟩, 0)) hkb)
  have huniq : ∀ a ∈ (auto_annotate kbBJ tokens scorer d).anns,
      (∃ p, annRange a p ∧ i ≤ p ∧ p < i + 4) → a = annBJDX i := by
    rintro a ha ⟨p, hap, hp1, hp2⟩
    by_contra hne
    have hpw := (annRun_inv d.content kbBJ tokens scorer).2
    have hdisj := List.Pairwise.forall disjAnn_symm hpw ha hmem hne
    exact hdisj p ⟨hap, ⟨hp1, hp2⟩⟩
  refine ⟨hmem, huniq, ?_⟩
  rintro ⟨a, ha, hsel, p, hap, hp1, hp2⟩
  have heq := huniq a ha ⟨p, hap, hp1, hp2⟩
  subst heq
  have hne : bjdx ≠ bj := by decide
  exact hne hsel

/-- Witness for C2 at a concrete document: text 去北京大学, occurrence of
北京大学 at position 1. -/
theorem c2_longest_match_wins_witness :
    annBJDX 1 ∈ (auto_annotate kbBJ [] (fun _ => none)
        ⟨['去', '北', '京', '大', '学'], 0, []⟩).anns
    ∧ (∀ a ∈ (auto_annotate kbBJ [] (fun _ => none)
          ⟨['去', '北', '京', '大', '学'], 0, []⟩).anns,
        (∃ p, annRange a p ∧ 1 ≤ p ∧ p < 1 + 4) → a = annBJDX 1)
    ∧ ¬(∃ a ∈ (auto_annotate kbBJ [] (fun _ => none)
          ⟨['去', '北', '京', '大', '学'], 0, []⟩).anns,
        a.selected_text = bj ∧ ∃ p, annRange a p ∧ 1 ≤ p ∧ p < 1 + 4) :=
  c2_longest_match_wins [] (fun _ => none)
    ⟨['去', '北', '京', '大', '学'], 0, []⟩ 1 (by decide)

theorem findFrom_isSome_iff {s sub : List Char} :
    (findFrom s sub 0).isSome = true ↔ ∃ j, occursAt s sub j = true := by
  constructor
  · intro h
    obtain ⟨r, hr⟩ := Option.isSome_iff_exists.mp h
    exact ⟨r, (findFromAux_imp hr).2⟩
  · rintro ⟨j, hj⟩
    obtain ⟨r, hr, -⟩ := findFrom_complete hj (Nat.zero_le j)
    rw [hr]
    rfl

theorem find?_first {α : Type} (p : α → Bool) :
    ∀ (l1 : List α) (b : α) (l2 : List α), (∀ c ∈ l1, ¬p c = true) → p b = true →
      (l1 ++ b :: l2).find? p = some b := by
  intro l1
  induction l1 with
  | nil =>
    intro b l2 _ hb
    rw [List.nil_append, List.find?_cons_of_pos _ hb]
  | cons c cs ih =>
    intro b l2 hno hb
    rw [List.cons_append, List.find?_cons_of_neg _ (hno c (by simp))]
    exact ih b l2 (fun x hx => hno x (by simp [hx])) hb

/-- Claim C9 (modelled from the spec, §4.6): the document-level category is
the first declared keyword bucket with a keyword occurring in the raw text
("other" when none matches), and the document sentiment buckets the full-text
score at the exclusive thresholds 0.6 and 0.4, a scorer failure defaulting to
score 0.5 and neutral. -/
theorem c9_document_level_classifier :
    ∀ (buckets : List (String × List (List Char))) (content : List Char)
      (scorer : List Char → Option ℚ),
      ((∀ b ∈ buckets, ∀ kw ∈ b.2, ¬∃ j, occursAt content kw j = true) →
        classify_document buckets content = "other")
    ∧ (∀ (l1 : List (String × List (List Char))) (b : String × List (List Char))
        (l2 : List (String × List (List Char))),
        buckets = l1 ++ b :: l2 →
        (∀ c ∈ l1, ∀ kw ∈ c.2, ¬∃ j, occursAt content kw j = true) →
        (∃ kw ∈ b.2, ∃ j, occursAt content kw j = true) →
        classify_document buckets content = b.1)
    ∧ (scorer content = none → doc_sentiment scorer content = (1/2, "neutral"))
    ∧ (∀ sc : ℚ, scorer content = some sc →
        (doc_sentiment scorer content).1 = sc
      ∧ ((doc_sentiment scorer content).2 = "positive" ↔ (6 : ℚ)/10 < sc)
      ∧ ((doc_sentiment scorer content).2 = "negative" ↔ sc < (4 : ℚ)/10)
      ∧ ((doc_sentiment scorer content).2 = "neutral" ↔
          ((4 : ℚ)/10 ≤ sc ∧ sc ≤ (6 : ℚ)/10))) := by
  intro buckets content scorer
  have hpred : ∀ b : String × List (List Char),
      ((b.2.any fun kw => (findFrom content kw 0).isSome) = true ↔
        ∃ kw ∈ b.2, ∃ j, occursAt content kw j = true) := by
    intro b
    rw [List.any_eq_true]
    constructor
    · rintro ⟨kw, hkw, h⟩
      exact ⟨kw, hkw, findFrom_isSome_iff.mp h⟩
    · rintro ⟨kw, hkw, h⟩
      exact ⟨kw, hkw, findFrom_isSome_iff.mpr h⟩
  refine ⟨?_, ?_, ?_, ?_⟩
  · intro hall
    unfold classify_document
    have hnone : buckets.find?
        (fun b => b.2.any fun kw => (findFrom content kw 0).isSome) = none := by
      rw [List.find?_eq_none]
      intro b hb hmatch
      obtain ⟨kw, hkw, j, hj⟩ := (hpred b).mp hmatch
      exact hall b hb kw hkw ⟨j, hj⟩
    rw [hnone]
  · intro l1 b l2 hsplit hno hyes
    unfold classify_document
    have hfind : buckets.find?
        (fun b => b.2.any fun kw => (findFrom content kw 0).isSome) = some b := by
      rw [hsplit]
      refine find?_first _ l1 b l2 ?_ ((hpred b).mpr hyes)
      intro c hc hmatch
      obtain ⟨kw, hkw, j, hj⟩ := (hpred c).mp hmatch
      exact hno c hc kw hkw ⟨j, hj⟩
    rw [hfind]
  · intro hnone
    unfold doc_sentiment
    rw [hnone]
    show ((1 : ℚ)/2,
      if (6 : ℚ)/10 < 1/2 then "positive"
      else if (1 : ℚ)/2 < 4/10 then "negative" else "neutral") = ((1 : ℚ)/2, "neutral")
    rw [if_neg (by norm_num), if_neg (by norm_num)]
  · intro sc hsc
    unfold doc_sentiment
    rw [hsc]
    dsimp only [Option.getD_some]
    refine ⟨rfl, ?_, ?_, ?_⟩
    · by_cases h1 : (6 : ℚ)/10 < sc
      · rw [if_pos h1]
        exact iff_of_true rfl h1
      · rw [if_neg h1]
        refine iff_of_false ?_ h1
        split <;> decide
    · by_cases h1 : (6 : ℚ)/10 < sc
      · rw [if_pos h1]
        refine iff_of_false (by decide) ?_
        intro h2
        have := h1.trans h2
        norm_num at this
      · rw [if_neg h1]
        by_cases h2 : sc < (4 : ℚ)/10
        · rw [if_pos h2]
          exact iff_of_true rfl h2
        · rw [if_neg h2]
          exact iff_of_false (by decide) h2
    · by_cases h1 : (6 : ℚ)/10 < sc
      · rw [if_pos h1]
        refine iff_of_false (by decide) ?_
        rintro ⟨-, hle⟩
        exact absurd h1 (not_lt.mpr hle)
      · rw [if_neg h1]
        by_cases h2 : sc < (4 : ℚ)/10
        · rw [if_pos h2]
          refine iff_of_false (by decide) ?_
          rintro ⟨hge, -⟩
          exact absurd h2 (not_lt.mpr hge)
        · rw [if_neg h2]
          exact iff_of_true rfl ⟨not_lt.mp h2, not_lt.mp h1⟩

/-- Claim C7 (evaluation at the failing input): a token whose text is a
knowledge-base key but is not found from the cursor sets the cursor to `-1`
(not `0 + 2 = 2` as the claim's cursor-advance rule would); a later token is
then resolved from position `length - 1`, here committing a span for "b" at
`[1,2)` even though searching from the claimed cursor 2 finds nothing. -/
theorem c7_kb_miss_cursor_eval :
    (phase2Run ['a','b'] [['c','c']] (fun _ => none)
        [(['c','c'], "x")] ⟨[], []⟩).2 = -1
    ∧ ((-1 : Int) ≠ 0 + (2 : Int))
    ∧ (phase2Run ['a','b'] [['c','c']] (fun _ => none)
        [(['c','c'], "x"), (['b'], "nr")] ⟨[], []⟩).1.anns
        = [⟨"命名实体", 1, 2, ['b'], "人名"⟩]
    ∧ pyFind ['a','b'] ['b'] 2 = -1 := by
  refine ⟨by decide, by decide, by decide, by decide⟩

end App
